import Mathlib

/-!
Verification of the `AcceptEncoding` content-negotiation header of the
`http-types` crate (`src/content/accept_encoding.rs`).

The container, parser driver (`from_headers`), `sort`, `negotiate` and the
serializer (`value`) are translated from the Rust source.  The collaborators
that live outside the analysed sources (the `Encoding` enumeration,
`EncodingProposal` with its weight parsing, the generic `sort_by_weight`
utility and the error type) are modelled from the specification; each such
definition carries a doc comment saying so.

Strings are handled through their character lists: `splitOnChar` mirrors
Rust's `str::split` on a single character and `trimChars` mirrors
`str::trim`.
-/

instance {ε α : Type} [DecidableEq ε] [DecidableEq α] : DecidableEq (Except ε α) := fun a b =>
  match a, b with
  | .ok x, .ok y =>
    if h : x = y then .isTrue (by rw [h]) else .isFalse (by intro hc; cases hc; exact h rfl)
  | .error x, .error y =>
    if h : x = y then .isTrue (by rw [h]) else .isFalse (by intro hc; cases hc; exact h rfl)
  | .ok _, .error _ => .isFalse (by intro hc; cases hc)
  | .error _, .ok _ => .isFalse (by intro hc; cases hc)

/-- Character-level model of Rust's `str::split(c)`: the auxiliary function
returns the chunk before the first separator together with the remaining
chunks. -/
def splitAux (c : Char) : List Char → List Char × List (List Char)
  | [] => ([], [])
  | x :: xs =>
    let r := splitAux c xs
    if x = c then ([], r.1 :: r.2) else (x :: r.1, r.2)

/-- `splitOnChar c l` splits `l` at every occurrence of `c`; like Rust's
`split`, it returns one (possibly empty) chunk more than the number of
separators. -/
def splitOnChar (c : Char) (l : List Char) : List (List Char) :=
  (splitAux c l).1 :: (splitAux c l).2

/-- Character-level model of Rust's `str::trim`. -/
def trimChars (l : List Char) : List Char :=
  ((l.dropWhile Char.isWhitespace).reverse.dropWhile Char.isWhitespace).reverse

/-- Numeric value of a decimal digit character. -/
def digitVal (c : Char) : Nat := c.toNat - '0'.toNat

/-- Value of a big-endian digit string. -/
def digitsVal (l : List Char) : Nat := l.foldl (fun n c => n * 10 + digitVal c) 0

/-- Modelled from the spec: a weight literal is numeric when it consists of
decimal digits with at most one decimal point and contains at least one
digit (`qvalue` grammar). -/
def validNum (l : List Char) : Bool :=
  l.all (fun c => c.isDigit || c = '.') && l.count '.' ≤ 1 && l.any (fun c => c.isDigit)

/-- Number of characters after the decimal point (0 when there is none). -/
def afterDot (l : List Char) : Nat := (l.dropWhile (fun c => c ≠ '.')).length - 1

/-- Rational value denoted by a decimal weight literal. -/
def decVal (l : List Char) : Rat :=
  mkRat (digitsVal (l.filter (fun c => c.isDigit))) (10 ^ afterDot l)

/-- Modelled from the spec: the error/status type is "constructible with an
arbitrary message and an attachable numeric HTTP status". -/
structure Error where
  message : String
  status : Option Nat
deriving DecidableEq, Repr

/-- HTTP status 406 Not Acceptable. -/
def StatusCode.notAcceptable : Nat := 406

/-- The negotiation error built by `negotiate` (`Error::new_adhoc` followed by
`set_status(StatusCode::NotAcceptable)`). -/
def notAcceptableError : Error :=
  { message := "No suitable ContentEncoding found", status := some StatusCode.notAcceptable }

/-- Parse error for a weight that is not a number. -/
def weightSyntaxError : Error :=
  { message := "invalid weight", status := none }

/-- Parse error for a numeric weight outside the interval from 0 to 1. -/
def weightRangeError : Error :=
  { message := "weight out of range", status := none }

/-- Parse error for a directive parameter that is not of the shape `q=value`. -/
def qFormatError : Error :=
  { message := "malformed q parameter", status := none }

/-- Modelled from the spec: the closed set of known compression algorithms
(the encoding model is an external collaborator of the analysed file). -/
inductive Encoding where
  | gzip
  | deflate
  | brotli
  | zstd
  | identity
deriving DecidableEq, Repr

/-- Canonical textual form of each known encoding. -/
def encToken : Encoding → List Char
  | .gzip => "gzip".toList
  | .deflate => "deflate".toList
  | .brotli => "br".toList
  | .zstd => "zstd".toList
  | .identity => "identity".toList

/-- Modelled from the spec: `parse_token(str) -> encoding | unrecognized`;
an unrecognized coding name yields `none`. -/
def Encoding.parseToken (t : List Char) : Option Encoding :=
  if t = "gzip".toList then some .gzip
  else if t = "deflate".toList then some .deflate
  else if t = "br".toList then some .brotli
  else if t = "zstd".toList then some .zstd
  else if t = "identity".toList then some .identity
  else none

/-- Modelled from the spec: a proposal is "an encoding identifier plus an
optional weight in 0..1"; the weight keeps the raw decimal literal found in
the header text. -/
structure EncodingProposal where
  encoding : Encoding
  weight : Option (List Char)
deriving DecidableEq, Repr

/-- Modelled from the spec: a malformed weight (non-numeric, or numeric but
outside 0..1) is a hard error; a well-formed weight is kept. -/
def parseWeight (l : List Char) : Except Error (List Char) :=
  if validNum l then
    if decVal l ≤ 1 then .ok l else .error weightRangeError
  else .error weightSyntaxError

/-- The `q=value` parameter of a directive whose coding was recognized. -/
def parseQParam (e : Encoding) (q : List Char) : Except Error (Option EncodingProposal) :=
  match trimChars q with
  | 'q' :: '=' :: w =>
    match parseWeight w with
    | .error err => .error err
    | .ok raw => .ok (some ⟨e, some raw⟩)
  | _ => .error qFormatError

/-- Directive parsing after the split on semicolons. -/
def from_parts : List (List Char) → Except Error (Option EncodingProposal)
  | [] => .ok none
  | [c] => .ok ((Encoding.parseToken (trimChars c)).map fun e => ⟨e, none⟩)
  | c :: q :: _ =>
    match Encoding.parseToken (trimChars c) with
    | none => .ok none
    | some e => parseQParam e q

/-- Modelled from the spec: parse one directive as `coding` or
`coding;q=value`; an unrecognized coding name yields `ok none` (the directive
is skipped), a malformed weight is a hard error. -/
def EncodingProposal.from_str (t : List Char) : Except Error (Option EncodingProposal) :=
  from_parts (splitOnChar ';' t)

/-- The aggregate of `accept_encoding.rs`: an insertion-ordered entry list
plus a wildcard flag. -/
structure AcceptEncoding where
  wildcard : Bool
  entries : List EncodingProposal
deriving DecidableEq, Repr

/-- One step of the parsing loop of `from_headers`: trim the part, skip empty
parts, record a wildcard, otherwise parse a directive and push it if it is
recognized. -/
def parseTok (st : List EncodingProposal × Bool) (t : List Char) :
    Except Error (List EncodingProposal × Bool) :=
  let p := trimChars t
  if p = [] then .ok st
  else if p = ['*'] then .ok (st.1, true)
  else
    match EncodingProposal.from_str p with
    | .error e => .error e
    | .ok none => .ok st
    | .ok (some entry) => .ok (st.1 ++ [entry], st.2)

/-- The parsing loop of `from_headers` over the comma-separated parts. -/
def parseToks : List (List Char) → List EncodingProposal × Bool →
    Except Error (List EncodingProposal × Bool)
  | [], st => .ok st
  | t :: ts, st =>
    match parseTok st t with
    | .error e => .error e
    | .ok st2 => parseToks ts st2

/-- The body of `AcceptEncoding::from_headers` once the header name was
found: each occurrence is trimmed and split on commas, and the parts are
folded by `parseTok`. -/
def from_values (values : List String) : Except Error (Option AcceptEncoding) :=
  match parseToks (values.flatMap fun v => splitOnChar ',' (trimChars v.toList)) ([], false) with
  | .error e => .error e
  | .ok st => .ok (some ⟨st.2, st.1⟩)

/-- `AcceptEncoding::from_headers`: `none` models a headers instance without
the `Accept-Encoding` name, `some values` the list of its occurrences. -/
def from_headers : Option (List String) → Except Error (Option AcceptEncoding)
  | none => .ok none
  | some values => from_values values

/-- Weight used for ordering: a missing weight counts as 1. -/
def qval (e : EncodingProposal) : Rat :=
  match e.weight with
  | none => 1
  | some w => decVal w

/-- Modelled from the spec: the ordering applied by the weighted-sort
utility on index-tagged entries — primary key weight descending, tie-break
declaration index descending ("declaration order reversed"). -/
def keyLe (a b : Nat × EncodingProposal) : Prop :=
  qval b.2 < qval a.2 ∨ (qval a.2 = qval b.2 ∧ b.1 ≤ a.1)

instance : DecidableRel keyLe := fun a b => by
  unfold keyLe
  infer_instance

instance : IsTotal (Nat × EncodingProposal) keyLe where
  total a b := by
    rcases lt_trichotomy (qval a.2) (qval b.2) with h | h | h
    · exact Or.inr (Or.inl h)
    · rcases Nat.le_total b.1 a.1 with hi | hi
      · exact Or.inl (Or.inr ⟨h, hi⟩)
      · exact Or.inr (Or.inr ⟨h.symm, hi⟩)
    · exact Or.inl (Or.inl h)

instance : IsTrans (Nat × EncodingProposal) keyLe where
  trans a b c hab hbc := by
    rcases hab with hab | ⟨hab, hiab⟩
    · rcases hbc with hbc | ⟨hbc, _⟩
      · exact Or.inl (lt_trans hbc hab)
      · exact Or.inl (hbc ▸ hab)
    · rcases hbc with hbc | ⟨hbc, hibc⟩
      · exact Or.inl (hab ▸ hbc)
      · exact Or.inr ⟨hab.trans hbc, le_trans hibc hiab⟩

/-- Sorting pass on index-tagged entries. -/
def sortIdx (l : List (Nat × EncodingProposal)) : List (Nat × EncodingProposal) :=
  l.insertionSort keyLe

/-- Modelled from the spec: `sort_by_weight`, the generic stable weighted
sort — entries are tagged with their declaration index, sorted by weight
descending with later declaration first among ties, and untagged again. -/
def sort_by_weight (l : List EncodingProposal) : List EncodingProposal :=
  (sortIdx l.enum).map Prod.snd

/-- `AcceptEncoding::sort`. -/
def AcceptEncoding.sort (acc : AcceptEncoding) : AcceptEncoding :=
  ⟨acc.wildcard, sort_by_weight acc.entries⟩

/-- Modelled from the spec: the content-encoding result type wrapping the
selected encoding. -/
structure ContentEncoding where
  encoding : Encoding
deriving DecidableEq, Repr

/-- The scan of `negotiate`: first entry whose encoding is a member of the
available list. -/
def findMatch (l : List EncodingProposal) (avail : List Encoding) : Option EncodingProposal :=
  l.find? fun e => decide (e.encoding ∈ avail)

/-- `AcceptEncoding::negotiate`: sort, scan for the first available entry,
fall back to the first available encoding under a wildcard, otherwise fail
with status 406.  The first component is the mutated (sorted) aggregate. -/
def AcceptEncoding.negotiate (acc : AcceptEncoding) (avail : List Encoding) :
    AcceptEncoding × Except Error ContentEncoding :=
  let sorted := acc.sort
  match findMatch sorted.entries avail with
  | some e => (sorted, .ok ⟨e.encoding⟩)
  | none =>
    if sorted.wildcard then
      match avail with
      | a :: _ => (sorted, .ok ⟨a⟩)
      | [] => (sorted, .error notAcceptableError)
    else (sorted, .error notAcceptableError)

/-- Rendering of one directive: `coding` or `coding;q=value`. -/
def renderProp (e : EncodingProposal) : List Char :=
  encToken e.encoding ++
    (match e.weight with
     | none => []
     | some w => ';' :: 'q' :: '=' :: w)

/-- `AcceptEncoding::value`: render the entries in their current order,
comma-separated, and append a wildcard star — comma-separated when the
rendered output is non-empty, bare otherwise. -/
def AcceptEncoding.value (acc : AcceptEncoding) : List Char :=
  let out :=
    match acc.entries with
    | [] => []
    | e :: es => es.foldl (fun s x => s ++ ',' :: ' ' :: renderProp x) (renderProp e)
  if acc.wildcard then
    if out.length = 0 then out ++ ['*'] else out ++ [',', ' ', '*']
  else out

/-- `AcceptEncoding::header_value` as a string. -/
def AcceptEncoding.header_value (acc : AcceptEncoding) : String :=
  String.mk acc.value

/-- Reference shape of the serialized value: the rendered directives followed
by the optional star, joined by a comma-space separator (a bare `*` when
there is no directive). -/
def joinSep (sep : List Char) : List (List Char) → List Char
  | [] => []
  | [t] => t
  | t :: t2 :: ts => t ++ sep ++ joinSep sep (t2 :: ts)

/-! ### Lemmas about splitting and trimming -/

theorem splitAux_nil (c : Char) : splitAux c [] = ([], []) := rfl

theorem splitAux_cons (c x : Char) (xs : List Char) :
    splitAux c (x :: xs) =
      if x = c then ([], (splitAux c xs).1 :: (splitAux c xs).2)
      else (x :: (splitAux c xs).1, (splitAux c xs).2) := by
  simp only [splitAux]

theorem splitAux_of_not_mem {c : Char} {l : List Char} (h : c ∉ l) :
    splitAux c l = (l, []) := by
  induction l with
  | nil => rfl
  | cons x xs ih =>
    have hx : ¬x = c := fun he => h (he ▸ List.mem_cons_self x xs)
    have hxs : c ∉ xs := fun hm => h (List.mem_cons_of_mem x hm)
    rw [splitAux_cons, if_neg hx, ih hxs]

theorem splitOnChar_of_not_mem {c : Char} {l : List Char} (h : c ∉ l) :
    splitOnChar c l = [l] := by
  simp [splitOnChar, splitAux_of_not_mem h]

theorem splitAux_append_sep {c : Char} {a : List Char} (b : List Char) (h : c ∉ a) :
    splitAux c (a ++ c :: b) = (a, (splitAux c b).1 :: (splitAux c b).2) := by
  induction a with
  | nil =>
    rw [List.nil_append, splitAux_cons, if_pos rfl]
  | cons x xs ih =>
    have hx : ¬x = c := fun he => h (he ▸ List.mem_cons_self x xs)
    have hxs : c ∉ xs := fun hm => h (List.mem_cons_of_mem x hm)
    rw [List.cons_append, splitAux_cons, if_neg hx, ih hxs]

theorem splitOnChar_append_sep {c : Char} {a : List Char} (b : List Char) (h : c ∉ a) :
    splitOnChar c (a ++ c :: b) = a :: splitOnChar c b := by
  simp [splitOnChar, splitAux_append_sep b h]

theorem splitOnChar_cons_of_ne {c x : Char} (xs : List Char) (h : ¬x = c) :
    splitOnChar c (x :: xs) =
      (x :: (splitAux c xs).1) :: (splitAux c xs).2 := by
  simp [splitOnChar, splitAux_cons, if_neg h]

theorem dropWhile_eq_self_of_forall {p : Char → Bool} {l : List Char}
    (h : ∀ x ∈ l, p x = false) : l.dropWhile p = l := by
  cases l with
  | nil => rfl
  | cons x xs =>
    rw [List.dropWhile_cons, h x (List.mem_cons_self x xs)]
    simp

theorem trimChars_of_no_ws {l : List Char} (h : ∀ x ∈ l, x.isWhitespace = false) :
    trimChars l = l := by
  unfold trimChars
  rw [dropWhile_eq_self_of_forall h,
    dropWhile_eq_self_of_forall (fun x hx => h x (List.mem_reverse.mp hx)),
    List.reverse_reverse]

theorem trimChars_cons_space (l : List Char) : trimChars (' ' :: l) = trimChars l := by
  unfold trimChars
  rw [List.dropWhile_cons, if_pos (show (' ').isWhitespace = true from rfl)]

theorem dropWhile_head? {p : Char → Bool} {l : List Char}
    (h : ∀ x, l.head? = some x → p x = false) : l.dropWhile p = l := by
  cases l with
  | nil => rfl
  | cons x xs =>
    rw [List.dropWhile_cons, h x rfl]
    simp

/-- A list whose first and last characters are not whitespace is unchanged by
trimming. -/
theorem trimChars_of_ends {l : List Char}
    (h1 : ∀ x, l.head? = some x → x.isWhitespace = false)
    (h2 : ∀ x, l.getLast? = some x → x.isWhitespace = false) :
    trimChars l = l := by
  unfold trimChars
  rw [dropWhile_head? h1, dropWhile_head? (fun x hx => h2 x (by rwa [List.head?_reverse] at hx)),
    List.reverse_reverse]

/-! ### Character class lemmas -/

theorem not_ws_of_isDigit {c : Char} (h : c.isDigit = true) : c.isWhitespace = false := by
  by_contra hws
  rw [Bool.not_eq_false] at hws
  simp only [Char.isWhitespace, Bool.or_eq_true, decide_eq_true_eq] at hws
  rcases hws with ((h1 | h1) | h1) | h1 <;> subst h1 <;> exact absurd h (by decide)

theorem ne_of_isDigit {c d : Char} (h : c.isDigit = true) (hd : d.isDigit = false) : c ≠ d := by
  intro he
  rw [he, hd] at h
  cases h

/-! ### Facts about encodings, weights and single directives -/

theorem encToken_chars (x : Encoding) :
    ∀ c ∈ encToken x, c.isWhitespace = false ∧ c ≠ ',' ∧ c ≠ ';' := by
  cases x <;> decide

theorem encToken_length (x : Encoding) : 2 ≤ (encToken x).length := by
  cases x <;> decide

theorem parseToken_encToken (x : Encoding) : Encoding.parseToken (encToken x) = some x := by
  cases x <;> rfl

theorem validNum_chars {w : List Char} (h : validNum w = true) :
    ∀ c ∈ w, c.isWhitespace = false ∧ c ≠ ',' ∧ c ≠ ';' := by
  intro c hc
  have hall : ∀ c ∈ w, (c.isDigit || c = '.') = true := by
    simp only [validNum, Bool.and_eq_true, List.all_eq_true] at h
    exact fun c hc => h.1.1 c hc
  rcases Bool.or_eq_true_iff.mp (hall c hc) with hd | hd
  · exact ⟨not_ws_of_isDigit hd, ne_of_isDigit hd (by decide), ne_of_isDigit hd (by decide)⟩
  · have : c = '.' := by simpa using hd
    subst this
    refine ⟨by decide, by decide, by decide⟩

/-- The well-formedness that parsing establishes for every stored entry: a
present weight is a numeric literal whose value is at most 1. -/
def WFp (e : EncodingProposal) : Prop :=
  ∀ w, e.weight = some w → validNum w = true ∧ decVal w ≤ 1

theorem parseWeight_ok {w r : List Char} (h : parseWeight w = .ok r) :
    r = w ∧ validNum w = true ∧ decVal w ≤ 1 := by
  unfold parseWeight at h
  by_cases h1 : validNum w
  · rw [if_pos h1] at h
    by_cases h2 : decVal w ≤ 1
    · rw [if_pos h2] at h
      cases h
      exact ⟨rfl, h1, h2⟩
    · rw [if_neg h2] at h
      cases h
  · rw [if_neg h1] at h
    cases h

theorem from_str_nil : EncodingProposal.from_str [] = .ok none := rfl

theorem from_str_star : EncodingProposal.from_str ['*'] = .ok none := rfl

theorem parseQParam_ok {x : Encoding} {q : List Char} {e : EncodingProposal}
    (h : parseQParam x q = .ok (some e)) :
    ∃ w, trimChars q = 'q' :: '=' :: w ∧ parseWeight w = .ok w ∧
      e = ⟨x, some w⟩ := by
  unfold parseQParam at h
  split at h
  · rename_i w heq
    cases hpw : parseWeight w with
    | error err => rw [hpw] at h; cases h
    | ok raw =>
      rw [hpw] at h
      cases h
      rcases parseWeight_ok hpw with ⟨hr, _, _⟩
      subst hr
      exact ⟨raw, heq, hpw, rfl⟩
  · cases h

theorem from_parts_ok_cases {ps : List (List Char)} {e : EncodingProposal}
    (h : from_parts ps = .ok (some e)) :
    (∃ c, ps = [c] ∧ Encoding.parseToken (trimChars c) = some e.encoding ∧
      e.weight = none) ∨
    (∃ c q rest, ps = c :: q :: rest ∧
      Encoding.parseToken (trimChars c) = some e.encoding ∧
      parseQParam e.encoding q = .ok (some e)) := by
  match ps with
  | [] => cases h
  | [c] =>
    left
    simp only [from_parts] at h
    cases hp : Encoding.parseToken (trimChars c) with
    | none => rw [hp] at h; cases h
    | some x =>
      rw [hp] at h
      cases h
      exact ⟨c, rfl, hp, rfl⟩
  | c :: q :: rest =>
    right
    simp only [from_parts] at h
    cases hp : Encoding.parseToken (trimChars c) with
    | none => rw [hp] at h; cases h
    | some x =>
      rw [hp] at h
      have hx : x = e.encoding := by
        rcases parseQParam_ok h with ⟨w, _, _, hw⟩
        rw [hw]
      exact ⟨c, q, rest, rfl, hx ▸ hp, hx ▸ h⟩

theorem from_str_WF {t : List Char} {e : EncodingProposal}
    (h : EncodingProposal.from_str t = .ok (some e)) : WFp e := by
  unfold EncodingProposal.from_str at h
  rcases from_parts_ok_cases h with ⟨c, _, _, hw⟩ | ⟨c, q, rest, _, _, hq⟩
  · intro w hw2
    rw [hw] at hw2
    cases hw2
  · rcases parseQParam_ok hq with ⟨w, _, hpw, he⟩
    intro w2 hw2
    rw [he] at hw2
    cases hw2
    rcases parseWeight_ok hpw with ⟨_, h1, h2⟩
    exact ⟨h1, h2⟩

/-! ### The parsing loop -/

theorem parseToks_append (xs ys : List (List Char)) (st : List EncodingProposal × Bool) :
    parseToks (xs ++ ys) st =
      match parseToks xs st with
      | .error e => .error e
      | .ok st2 => parseToks ys st2 := by
  induction xs generalizing st with
  | nil => rfl
  | cons x xs ih =>
    rw [List.cons_append]
    simp only [parseToks]
    cases parseTok st x with
    | error e => rfl
    | ok st2 => exact ih st2

theorem parseTok_space (st : List EncodingProposal × Bool) (t : List Char) :
    parseTok st (' ' :: t) = parseTok st t := by
  unfold parseTok
  rw [trimChars_cons_space]

theorem parseTok_of_error {t : List Char} {e : Error}
    (h : EncodingProposal.from_str (trimChars t) = .error e)
    (st : List EncodingProposal × Bool) : parseTok st t = .error e := by
  unfold parseTok
  have h0 : ¬trimChars t = [] := by
    intro hq
    rw [hq, from_str_nil] at h
    exact Except.noConfusion h
  have h1 : ¬trimChars t = ['*'] := by
    intro hq
    rw [hq, from_str_star] at h
    exact Except.noConfusion h
  rw [if_neg h0, if_neg h1, h]

theorem parseTok_of_skip {t : List Char}
    (h : EncodingProposal.from_str (trimChars t) = .ok none)
    (hstar : trimChars t ≠ ['*']) (st : List EncodingProposal × Bool) :
    parseTok st t = .ok st := by
  unfold parseTok
  by_cases h0 : trimChars t = []
  · rw [if_pos h0]
  · rw [if_neg h0, if_neg hstar, h]

theorem parseTok_of_entry {t : List Char} {e : EncodingProposal}
    (h : EncodingProposal.from_str (trimChars t) = .ok (some e))
    (st : List EncodingProposal × Bool) : parseTok st t = .ok (st.1 ++ [e], st.2) := by
  unfold parseTok
  have h0 : ¬trimChars t = [] := by
    intro hq
    rw [hq, from_str_nil] at h
    cases h
  have h1 : ¬trimChars t = ['*'] := by
    intro hq
    rw [hq, from_str_star] at h
    cases h
  rw [if_neg h0, if_neg h1, h]

theorem parseToks_error_mem {t : List Char} {e : Error}
    (h : EncodingProposal.from_str (trimChars t) = .error e) :
    ∀ (xs ys : List (List Char)) (st : List EncodingProposal × Bool),
      ∃ e2, parseToks (xs ++ t :: ys) st = .error e2 := by
  intro xs
  induction xs with
  | nil =>
    intro ys st
    refine ⟨e, ?_⟩
    simp only [List.nil_append, parseToks, parseTok_of_error h]
  | cons x xs ih =>
    intro ys st
    rw [List.cons_append]
    simp only [parseToks]
    cases hx : parseTok st x with
    | error e2 => exact ⟨e2, rfl⟩
    | ok st2 => exact ih ys st2

theorem parseToks_skip {t : List Char}
    (h : EncodingProposal.from_str (trimChars t) = .ok none)
    (hstar : trimChars t ≠ ['*']) :
    ∀ (xs ys : List (List Char)) (st : List EncodingProposal × Bool),
      parseToks (xs ++ t :: ys) st = parseToks (xs ++ ys) st := by
  intro xs
  induction xs with
  | nil =>
    intro ys st
    simp only [List.nil_append, parseToks, parseTok_of_skip h hstar]
  | cons x xs ih =>
    intro ys st
    simp only [List.cons_append, parseToks]
    cases hx : parseTok st x with
    | error e2 => rfl
    | ok st2 => exact ih ys st2

theorem parseToks_WF {ts : List (List Char)} {st st2 : List EncodingProposal × Bool}
    (h : parseToks ts st = .ok st2) (hst : ∀ e ∈ st.1, WFp e) :
    ∀ e ∈ st2.1, WFp e := by
  induction ts generalizing st with
  | nil =>
    cases h
    exact hst
  | cons t ts ih =>
    simp only [parseToks] at h
    cases htk : parseTok st t with
    | error e => rw [htk] at h; cases h
    | ok st1 =>
      rw [htk] at h
      refine ih h ?_
      unfold parseTok at htk
      by_cases h0 : trimChars t = []
      · rw [if_pos h0] at htk
        cases htk
        exact hst
      · rw [if_neg h0] at htk
        by_cases h1 : trimChars t = ['*']
        · rw [if_pos h1] at htk
          cases htk
          exact hst
        · rw [if_neg h1] at htk
          cases hfs : EncodingProposal.from_str (trimChars t) with
          | error e2 => rw [hfs] at htk; cases htk
          | ok oe =>
            rw [hfs] at htk
            cases oe with
            | none =>
              cases htk
              exact hst
            | some entry =>
              cases htk
              intro e he
              rcases List.mem_append.mp he with he | he
              · exact hst e he
              · rw [List.mem_singleton.mp he]
                exact from_str_WF hfs

theorem from_headers_ok {vals : List String} {acc : AcceptEncoding}
    (h : from_headers (some vals) = .ok (some acc)) :
    parseToks (vals.flatMap fun v => splitOnChar ',' (trimChars v.toList)) ([], false) =
      .ok (acc.entries, acc.wildcard) := by
  have h2 : from_values vals = .ok (some acc) := h
  unfold from_values at h2
  cases hp : parseToks (vals.flatMap fun v => splitOnChar ',' (trimChars v.toList)) ([], false) with
  | error e => rw [hp] at h2; cases h2
  | ok st =>
    rw [hp] at h2
    cases h2
    rfl

theorem from_headers_WF {vals : List String} {acc : AcceptEncoding}
    (h : from_headers (some vals) = .ok (some acc)) : ∀ e ∈ acc.entries, WFp e := by
  have hp := from_headers_ok h
  exact parseToks_WF hp (by intro e he; cases he)

/-! ### Sorting lemmas -/

theorem sortIdx_perm (l : List (Nat × EncodingProposal)) : List.Perm (sortIdx l) l :=
  List.perm_insertionSort keyLe l

theorem enum_map_snd (l : List EncodingProposal) : l.enum.map Prod.snd = l :=
  List.enumFrom_map_snd 0 l

theorem sort_by_weight_perm (l : List EncodingProposal) : List.Perm (sort_by_weight l) l := by
  have h1 := (sortIdx_perm l.enum).map Prod.snd
  rwa [enum_map_snd] at h1

theorem mem_sort_by_weight {e : EncodingProposal} {l : List EncodingProposal} :
    e ∈ sort_by_weight l ↔ e ∈ l :=
  (sort_by_weight_perm l).mem_iff

theorem sortIdx_sorted (l : List (Nat × EncodingProposal)) :
    List.Pairwise keyLe (sortIdx l) :=
  List.sorted_insertionSort keyLe l

theorem le_fst_of_mem_enumFrom {α : Type} {p : Nat × α} :
    ∀ {n : Nat} {l : List α}, p ∈ l.enumFrom n → n ≤ p.1 := by
  intro n l
  induction l generalizing n with
  | nil => intro h; cases h
  | cons x xs ih =>
    intro h
    rcases List.mem_cons.mp h with h | h
    · rw [h]
    · exact Nat.le_of_succ_le (ih h)

theorem pairwise_fst_lt_enumFrom {α : Type} (n : Nat) (l : List α) :
    List.Pairwise (fun a b : Nat × α => a.1 < b.1) (l.enumFrom n) := by
  induction l generalizing n with
  | nil => exact List.Pairwise.nil
  | cons x xs ih =>
    refine List.Pairwise.cons ?_ (ih (n + 1))
    intro b hb
    exact Nat.lt_of_succ_le (le_fst_of_mem_enumFrom hb)

theorem sortIdx_pairwise_ne (l : List EncodingProposal) :
    List.Pairwise (fun a b : Nat × EncodingProposal => a.1 ≠ b.1) (sortIdx l.enum) := by
  have h1 : List.Pairwise (fun a b : Nat × EncodingProposal => a.1 ≠ b.1) l.enum :=
    (pairwise_fst_lt_enumFrom 0 l).imp fun h => Nat.ne_of_lt h
  exact ((sortIdx_perm l.enum).pairwise_iff fun h => h.symm).mpr h1

theorem sortIdx_strict (l : List EncodingProposal) :
    List.Pairwise
      (fun a b : Nat × EncodingProposal =>
        qval b.2 < qval a.2 ∨ (qval a.2 = qval b.2 ∧ b.1 < a.1))
      (sortIdx l.enum) := by
  refine ((sortIdx_sorted l.enum).and (sortIdx_pairwise_ne l)).imp ?_
  rintro a b ⟨hk, hne⟩
  rcases hk with h | ⟨heq, hle⟩
  · exact Or.inl h
  · exact Or.inr ⟨heq, Nat.lt_of_le_of_ne hle (Ne.symm hne)⟩

/-! ### Scan lemmas -/

theorem find?_ext {α : Type} {p q : α → Bool} (h : ∀ x, p x = q x) :
    ∀ l : List α, l.find? p = l.find? q := by
  intro l
  induction l with
  | nil => rfl
  | cons x xs ih =>
    rw [List.find?_cons, List.find?_cons, h x]
    cases q x
    · exact ih
    · rfl

theorem findMatch_eq_none {l : List EncodingProposal} {avail : List Encoding} :
    findMatch l avail = none ↔ ∀ e ∈ l, e.encoding ∉ avail := by
  unfold findMatch
  rw [List.find?_eq_none]
  simp

theorem findMatch_mem_eq {l : List EncodingProposal} {avail avail' : List Encoding}
    (h : ∀ x, x ∈ avail ↔ x ∈ avail') : findMatch l avail = findMatch l avail' := by
  unfold findMatch
  exact find?_ext (fun e => decide_eq_decide.mpr (h e.encoding)) l

/-! ### Serializer lemmas -/

theorem foldl_render (es : List EncodingProposal) :
    ∀ a : List Char,
      es.foldl (fun s x => s ++ ',' :: ' ' :: renderProp x) a =
        a ++ (es.map fun x => ',' :: ' ' :: renderProp x).flatten := by
  induction es with
  | nil => intro a; simp
  | cons x xs ih =>
    intro a
    rw [List.foldl_cons, ih]
    simp [List.append_assoc]

theorem joinSep_cons (sep t : List Char) (ts : List (List Char)) :
    joinSep sep (t :: ts) = t ++ (ts.map fun x => sep ++ x).flatten := by
  induction ts generalizing t with
  | nil => simp [joinSep]
  | cons t2 rest ih =>
    show t ++ sep ++ joinSep sep (t2 :: rest) = _
    rw [ih t2]
    simp [List.append_assoc]

theorem renderProp_length (e : EncodingProposal) : 2 ≤ (renderProp e).length := by
  unfold renderProp
  rw [List.length_append]
  have := encToken_length e.encoding
  omega

theorem renderProp_ne_nil (e : EncodingProposal) : renderProp e ≠ [] := by
  intro h
  have h2 := renderProp_length e
  rw [h] at h2
  exact absurd h2 (by decide)

theorem renderProp_ne_star (e : EncodingProposal) : renderProp e ≠ ['*'] := by
  intro h
  have h2 := renderProp_length e
  rw [h] at h2
  exact absurd h2 (by decide)

theorem value_eq (acc : AcceptEncoding) :
    acc.value =
      joinSep [',', ' ']
        (acc.entries.map renderProp ++ if acc.wildcard then [['*']] else []) := by
  unfold AcceptEncoding.value
  cases hE : acc.entries with
  | nil =>
    cases hw : acc.wildcard
    · rfl
    · rfl
  | cons e es =>
    dsimp only
    rw [foldl_render]
    have hlen : (renderProp e ++ (es.map fun x => ',' :: ' ' :: renderProp x).flatten).length ≠ 0 := by
      rw [List.length_append]
      have h1 := renderProp_length e
      omega
    cases hw : acc.wildcard
    · simp only [if_neg (by decide : ¬false = true)]
      rw [List.append_nil, List.map_cons, joinSep_cons, List.map_map]
      rfl
    · simp only [if_pos rfl, if_neg hlen]
      rw [List.map_cons, List.cons_append, joinSep_cons, List.map_append, List.flatten_append,
        List.map_map]
      simp only [List.append_assoc]
      rfl

/-! ### Round-trip: rendering a well-formed aggregate parses back -/

theorem semi_not_mem_encToken (x : Encoding) : ';' ∉ encToken x := fun hm =>
  (encToken_chars x ';' hm).2.2 rfl

theorem renderProp_chars {e : EncodingProposal} (h : WFp e) :
    ∀ c ∈ renderProp e, c.isWhitespace = false ∧ c ≠ ',' := by
  intro c hc
  unfold renderProp at hc
  rcases List.mem_append.mp hc with hc | hc
  · exact ⟨(encToken_chars e.encoding c hc).1, (encToken_chars e.encoding c hc).2.1⟩
  · cases hw : e.weight with
    | none => rw [hw] at hc; cases hc
    | some w =>
      rw [hw] at hc
      have hvn := (h w hw).1
      rcases List.mem_cons.mp hc with hc | hc
      · subst hc; exact ⟨by decide, by decide⟩
      · rcases List.mem_cons.mp hc with hc | hc
        · subst hc; exact ⟨by decide, by decide⟩
        · rcases List.mem_cons.mp hc with hc | hc
          · subst hc; exact ⟨by decide, by decide⟩
          · exact ⟨(validNum_chars hvn c hc).1, (validNum_chars hvn c hc).2.1⟩

theorem renderProp_no_ws {e : EncodingProposal} (h : WFp e) :
    ∀ c ∈ renderProp e, c.isWhitespace = false := fun c hc => (renderProp_chars h c hc).1

theorem renderProp_no_comma {e : EncodingProposal} (h : WFp e) : ',' ∉ renderProp e :=
  fun hm => (renderProp_chars h ',' hm).2 rfl

theorem trimChars_renderProp {e : EncodingProposal} (h : WFp e) :
    trimChars (renderProp e) = renderProp e :=
  trimChars_of_no_ws (renderProp_no_ws h)

theorem from_str_render {e : EncodingProposal} (h : WFp e) :
    EncodingProposal.from_str (renderProp e) = .ok (some e) := by
  obtain ⟨enc, w⟩ := e
  cases w with
  | none =>
    have hr : renderProp ⟨enc, none⟩ = encToken enc := by
      simp [renderProp]
    unfold EncodingProposal.from_str
    rw [hr, splitOnChar_of_not_mem (semi_not_mem_encToken enc)]
    simp only [from_parts]
    rw [trimChars_of_no_ws (fun c hc => (encToken_chars enc c hc).1), parseToken_encToken]
    rfl
  | some w =>
    have hvn : validNum w = true ∧ decVal w ≤ 1 := h w rfl
    have hnosemi : ';' ∉ 'q' :: '=' :: w := by
      intro hm
      rcases List.mem_cons.mp hm with hm | hm
      · cases hm
      · rcases List.mem_cons.mp hm with hm | hm
        · cases hm
        · exact (validNum_chars hvn.1 ';' hm).2.2 rfl
    have hr : renderProp ⟨enc, some w⟩ = encToken enc ++ ';' :: ('q' :: '=' :: w) := by
      simp [renderProp]
    unfold EncodingProposal.from_str
    rw [hr, splitOnChar_append_sep _ (semi_not_mem_encToken enc),
      splitOnChar_of_not_mem hnosemi]
    simp only [from_parts]
    rw [trimChars_of_no_ws (fun c hc => (encToken_chars enc c hc).1), parseToken_encToken]
    have htr : trimChars ('q' :: '=' :: w) = 'q' :: '=' :: w := by
      refine trimChars_of_no_ws ?_
      intro c hc
      rcases List.mem_cons.mp hc with hc | hc
      · subst hc; decide
      · rcases List.mem_cons.mp hc with hc | hc
        · subst hc; decide
        · exact (validNum_chars hvn.1 c hc).1
    simp only [parseQParam, htr]
    unfold parseWeight
    rw [if_pos hvn.1, if_pos hvn.2]

theorem parseTok_render {e : EncodingProposal} (h : WFp e)
    (st : List EncodingProposal × Bool) :
    parseTok st (renderProp e) = .ok (st.1 ++ [e], st.2) := by
  refine parseTok_of_entry ?_ st
  rw [trimChars_renderProp h, from_str_render h]

theorem parseToks_spaced {l : List EncodingProposal} (h : ∀ e ∈ l, WFp e) :
    ∀ st, parseToks (l.map fun e => ' ' :: renderProp e) st = .ok (st.1 ++ l, st.2) := by
  induction l with
  | nil =>
    intro st
    rw [List.append_nil]
    rfl
  | cons e l2 ih =>
    intro st
    simp only [List.map_cons, parseToks, parseTok_space, parseTok_render (h e (by simp))]
    rw [ih (fun x hx => h x (List.mem_cons_of_mem e hx)) ((st.1 ++ [e], st.2))]
    simp

theorem splitOnChar_joinSep :
    ∀ (ts : List (List Char)) (t : List Char), ',' ∉ t → (∀ x ∈ ts, ',' ∉ x) →
      splitOnChar ',' (joinSep [',', ' '] (t :: ts)) = t :: ts.map (fun x => ' ' :: x) := by
  intro ts
  induction ts with
  | nil =>
    intro t ht _
    exact splitOnChar_of_not_mem ht
  | cons t2 rest ih =>
    intro t ht hts
    have hstep : joinSep [',', ' '] (t :: t2 :: rest) =
        t ++ ',' :: (' ' :: joinSep [',', ' '] (t2 :: rest)) := by
      show t ++ [',', ' '] ++ joinSep [',', ' '] (t2 :: rest) = _
      simp [List.append_assoc]
    rw [hstep, splitOnChar_append_sep _ ht]
    have hIH := ih t2 (hts t2 (List.mem_cons_self t2 rest))
      (fun x hx => hts x (List.mem_cons_of_mem t2 hx))
    unfold splitOnChar at hIH
    injection hIH with h1 h2
    rw [splitOnChar_cons_of_ne _ (by decide : ¬(' ' = ',')), h1, h2]
    rfl

theorem value_head {acc : AcceptEncoding} (hWF : ∀ e ∈ acc.entries, WFp e) :
    ∀ c, acc.value.head? = some c → c.isWhitespace = false := by
  intro c hc
  rw [value_eq] at hc
  cases hE : acc.entries with
  | nil =>
    rw [hE] at hc
    cases hw : acc.wildcard <;> rw [hw] at hc
    · rw [if_neg (by decide : ¬false = true)] at hc
      simp only [List.map_nil, List.nil_append, joinSep] at hc
      cases hc
    · rw [if_pos rfl] at hc
      simp only [List.map_nil, List.nil_append, joinSep, List.head?_cons] at hc
      cases hc
      decide
  | cons e es =>
    rw [hE] at hc
    rw [List.map_cons, List.cons_append, joinSep_cons, List.head?_append] at hc
    have hWFe : WFp e := hWF e (hE ▸ List.mem_cons_self e es)
    cases hrp : renderProp e with
    | nil => exact absurd hrp (renderProp_ne_nil e)
    | cons c0 cs =>
      rw [hrp] at hc
      simp only [List.head?_cons, Option.or_some] at hc
      cases hc
      have hmem : c ∈ renderProp e := by
        rw [hrp]
        exact List.mem_cons_self _ _
      exact (renderProp_chars hWFe c hmem).1

theorem flat_getLast {es : List EncodingProposal} (hWF : ∀ e ∈ es, WFp e) :
    ∀ c, ((es.map fun x => ',' :: ' ' :: renderProp x).flatten).getLast? = some c →
      c.isWhitespace = false := by
  induction es with
  | nil => intro c hc; cases hc
  | cons x xs ih =>
    intro c hc
    rw [List.map_cons, List.flatten_cons, List.getLast?_append] at hc
    cases hfl : ((xs.map fun x => ',' :: ' ' :: renderProp x).flatten).getLast? with
    | some c2 =>
      rw [hfl] at hc
      simp only [Option.or_some] at hc
      cases hc
      exact ih (fun e he => hWF e (List.mem_cons_of_mem x he)) c hfl
    | none =>
      rw [hfl] at hc
      simp only [Option.none_or] at hc
      have hWFx : WFp x := hWF x (List.mem_cons_self x xs)
      cases hrp : renderProp x with
      | nil => exact absurd hrp (renderProp_ne_nil x)
      | cons c0 cs =>
        rw [hrp, List.getLast?_cons_cons, List.getLast?_cons_cons] at hc
        have hmem : c ∈ renderProp x := by
          rw [hrp]
          exact List.mem_of_mem_getLast? (Option.mem_def.mpr hc)
        exact (renderProp_chars hWFx c hmem).1

theorem value_getLast {acc : AcceptEncoding} (hWF : ∀ e ∈ acc.entries, WFp e) :
    ∀ c, acc.value.getLast? = some c → c.isWhitespace = false := by
  intro c hc
  unfold AcceptEncoding.value at hc
  cases hw : acc.wildcard <;> rw [hw] at hc
  · rw [if_neg (by decide : ¬false = true)] at hc
    cases hE : acc.entries with
    | nil => rw [hE] at hc; cases hc
    | cons e es =>
      rw [hE] at hc
      dsimp only at hc
      rw [foldl_render, List.getLast?_append] at hc
      cases hfl : ((es.map fun x => ',' :: ' ' :: renderProp x).flatten).getLast? with
      | some c2 =>
        rw [hfl] at hc
        simp only [Option.or_some] at hc
        cases hc
        exact flat_getLast (fun x hx => hWF x (hE ▸ List.mem_cons_of_mem e hx)) c hfl
      | none =>
        rw [hfl] at hc
        simp only [Option.none_or] at hc
        have hWFe : WFp e := hWF e (hE ▸ List.mem_cons_self e es)
        exact (renderProp_chars hWFe c (List.mem_of_mem_getLast? (by
          rw [Option.mem_def]; exact hc))).1
  · rw [if_pos rfl] at hc
    split at hc
    · rw [List.getLast?_concat] at hc
      cases hc
      decide
    · rw [List.getLast?_append] at hc
      have h3 : ([',', ' ', '*'] : List Char).getLast? = some '*' := by decide
      rw [h3] at hc
      simp only [Option.or_some] at hc
      cases hc
      decide

theorem trimChars_value {acc : AcceptEncoding} (hWF : ∀ e ∈ acc.entries, WFp e) :
    trimChars acc.value = acc.value :=
  trimChars_of_ends (value_head hWF) (value_getLast hWF)

theorem parseTok_star (st : List EncodingProposal × Bool) :
    parseTok st [' ', '*'] = .ok (st.1, true) := by
  unfold parseTok
  have h : trimChars [' ', '*'] = ['*'] := by decide
  rw [h, if_neg (by decide : ¬(['*'] : List Char) = []), if_pos rfl]

theorem from_values_single (v : String) :
    from_values [v] =
      match parseToks (splitOnChar ',' (trimChars v.toList)) ([], false) with
      | .error e => .error e
      | .ok st => .ok (some ⟨st.2, st.1⟩) := by
  unfold from_values
  have h : ([v].flatMap fun w => splitOnChar ',' (trimChars w.toList)) =
      splitOnChar ',' (trimChars v.toList) := by
    simp [List.flatMap]
  rw [h]

/-- Serializing a well-formed aggregate and parsing the result as a single
header occurrence restores the aggregate exactly. -/
theorem roundtrip {acc : AcceptEncoding} (hWF : ∀ e ∈ acc.entries, WFp e) :
    from_headers (some [String.mk acc.value]) = .ok (some acc) := by
  show from_values [String.mk acc.value] = .ok (some acc)
  rw [from_values_single]
  have hstr : (String.mk acc.value).toList = acc.value := rfl
  rw [hstr, trimChars_value hWF]
  suffices h : parseToks (splitOnChar ',' acc.value) ([], false) =
      .ok (acc.entries, acc.wildcard) by
    rw [h]
  obtain ⟨w, entries⟩ := acc
  dsimp only at hWF
  dsimp only
  cases entries with
  | nil =>
    cases w
    · decide
    · decide
  | cons e es =>
    rw [value_eq]
    dsimp only
    rw [List.map_cons, List.cons_append]
    have hWFe : WFp e := hWF e (List.mem_cons_self e es)
    have hWFes : ∀ x ∈ es, WFp x := fun x hx => hWF x (List.mem_cons_of_mem e hx)
    rw [splitOnChar_joinSep
      (es.map renderProp ++ if w = true then [['*']] else []) (renderProp e)
      (renderProp_no_comma hWFe) ?hlist]
    case hlist =>
      intro x hx
      rcases List.mem_append.mp hx with hx | hx
      · rcases List.mem_map.mp hx with ⟨y, hy, hyx⟩
        exact hyx ▸ renderProp_no_comma (hWFes y hy)
      · cases w
        · cases hx
        · rw [if_pos rfl] at hx
          rcases List.mem_cons.mp hx with hx | hx
          · rw [hx]
            decide
          · cases hx
    simp only [parseToks]
    rw [parseTok_render hWFe ([], false)]
    dsimp only
    rw [List.map_append,
      show (List.map renderProp es).map (fun x => ' ' :: x) =
        es.map (fun x => ' ' :: renderProp x) from by rw [List.map_map]; rfl]
    simp only [List.nil_append]
    rw [parseToks_append, parseToks_spaced hWFes ([e], false)]
    dsimp only
    cases w
    · rfl
    · rw [if_pos rfl]
      simp only [List.map_cons, List.map_nil, parseToks]
      rw [parseTok_star]
      rfl

/-! ### Negotiation lemmas -/

theorem sort_entries (acc : AcceptEncoding) :
    (acc.sort).entries = sort_by_weight acc.entries := rfl

theorem sort_wildcard (acc : AcceptEncoding) :
    (acc.sort).wildcard = acc.wildcard := rfl

theorem negotiate_of_findMatch_some {acc : AcceptEncoding} {avail : List Encoding}
    {e : EncodingProposal} (h : findMatch (sort_by_weight acc.entries) avail = some e) :
    acc.negotiate avail = (acc.sort, .ok ⟨e.encoding⟩) := by
  unfold AcceptEncoding.negotiate
  dsimp only
  rw [sort_entries, h]

theorem negotiate_none_wild_cons {acc : AcceptEncoding} {a : Encoding} {rest : List Encoding}
    (h : findMatch (sort_by_weight acc.entries) (a :: rest) = none)
    (hw : acc.wildcard = true) :
    acc.negotiate (a :: rest) = (acc.sort, .ok ⟨a⟩) := by
  unfold AcceptEncoding.negotiate
  dsimp only
  rw [sort_entries, h, sort_wildcard, hw]
  rfl

theorem negotiate_none_nil {acc : AcceptEncoding}
    (h : findMatch (sort_by_weight acc.entries) [] = none) (hw : acc.wildcard = true) :
    acc.negotiate [] = (acc.sort, .error notAcceptableError) := by
  unfold AcceptEncoding.negotiate
  dsimp only
  rw [sort_entries, h, sort_wildcard, hw]
  rfl

theorem negotiate_none_nowild {acc : AcceptEncoding} {avail : List Encoding}
    (h : findMatch (sort_by_weight acc.entries) avail = none) (hw : acc.wildcard = false) :
    acc.negotiate avail = (acc.sort, .error notAcceptableError) := by
  unfold AcceptEncoding.negotiate
  dsimp only
  rw [sort_entries, h, sort_wildcard, hw]
  rfl

theorem findMatch_none_of_no_mem {acc : AcceptEncoding} {avail : List Encoding}
    (hno : ∀ p ∈ acc.entries, p.encoding ∉ avail) :
    findMatch (sort_by_weight acc.entries) avail = none :=
  findMatch_eq_none.mpr fun e he => hno e (mem_sort_by_weight.mp he)

theorem negotiate_error_cases {acc : AcceptEncoding} {avail : List Encoding} {e : Error}
    (h : (acc.negotiate avail).2 = .error e) :
    e = notAcceptableError ∧ findMatch (sort_by_weight acc.entries) avail = none ∧
      (acc.wildcard = true → avail = []) := by
  cases hfm : findMatch (sort_by_weight acc.entries) avail with
  | some x =>
    rw [negotiate_of_findMatch_some hfm] at h
    cases h
  | none =>
    cases hwb : acc.wildcard with
    | true =>
      cases avail with
      | nil =>
        rw [negotiate_none_nil hfm hwb] at h
        cases h
        exact ⟨rfl, rfl, fun _ => rfl⟩
      | cons a rest =>
        rw [negotiate_none_wild_cons hfm hwb] at h
        cases h
    | false =>
      rw [negotiate_none_nowild hfm hwb] at h
      cases h
      exact ⟨rfl, rfl, fun hc => absurd hc (by decide)⟩

theorem negotiate_fst {acc : AcceptEncoding} (avail : List Encoding) :
    (acc.negotiate avail).1 = acc.sort := by
  cases hfm : findMatch (sort_by_weight acc.entries) avail with
  | some x => rw [negotiate_of_findMatch_some hfm]
  | none =>
    cases hwb : acc.wildcard with
    | true =>
      cases avail with
      | nil => rw [negotiate_none_nil hfm hwb]
      | cons a rest => rw [negotiate_none_wild_cons hfm hwb]
    | false => rw [negotiate_none_nowild hfm hwb]

/-! ### Claim theorems -/

/-- C1: negotiate first sorts the entries per the weight rule and returns the
first sorted entry whose encoding is a member of the available list; the
available list enters only through membership, so any membership-equivalent
available list selects the same entry in this step. -/
theorem C1_negotiate_first_match {acc : AcceptEncoding} {avail : List Encoding}
    {e : EncodingProposal} (h : findMatch (sort_by_weight acc.entries) avail = some e) :
    acc.negotiate avail = (acc.sort, .ok ⟨e.encoding⟩) ∧
    (∃ pre post, sort_by_weight acc.entries = pre ++ e :: post ∧
      e.encoding ∈ avail ∧ ∀ x ∈ pre, x.encoding ∉ avail) ∧
    ∀ avail' : List Encoding, (∀ x, x ∈ avail ↔ x ∈ avail') →
      findMatch (sort_by_weight acc.entries) avail' = some e := by
  refine ⟨negotiate_of_findMatch_some h, ?_, ?_⟩
  · have h2 : (sort_by_weight acc.entries).find?
        (fun x => decide (x.encoding ∈ avail)) = some e := h
    rcases List.find?_eq_some.mp h2 with ⟨hpe, as, bs, hsplit, hpre⟩
    refine ⟨as, bs, hsplit, of_decide_eq_true hpe, ?_⟩
    intro x hx
    simpa using hpre x hx
  · intro avail' hmem
    rw [← findMatch_mem_eq hmem]
    exact h

/-- C1 witness: the spec scenario gzip with weight 0.4, identity, brotli with
weight 0.8 against availability brotli then gzip selects brotli. -/
theorem C1_witness :
    (⟨false, [⟨.gzip, some ['0', '.', '4']⟩, ⟨.identity, none⟩,
        ⟨.brotli, some ['0', '.', '8']⟩]⟩ : AcceptEncoding).negotiate
        [.brotli, .gzip] =
      ((⟨false, [⟨.gzip, some ['0', '.', '4']⟩, ⟨.identity, none⟩,
        ⟨.brotli, some ['0', '.', '8']⟩]⟩ : AcceptEncoding).sort,
        .ok ⟨Encoding.brotli⟩) ∧
    (∃ pre post,
      sort_by_weight [⟨.gzip, some ['0', '.', '4']⟩, ⟨.identity, none⟩,
          ⟨.brotli, some ['0', '.', '8']⟩] =
        pre ++ (⟨.brotli, some ['0', '.', '8']⟩ : EncodingProposal) :: post ∧
      Encoding.brotli ∈ [Encoding.brotli, Encoding.gzip] ∧
      ∀ x ∈ pre, x.encoding ∉ [Encoding.brotli, Encoding.gzip]) ∧
    ∀ avail' : List Encoding,
      (∀ x, x ∈ [Encoding.brotli, Encoding.gzip] ↔ x ∈ avail') →
      findMatch
        (sort_by_weight [⟨.gzip, some ['0', '.', '4']⟩, ⟨.identity, none⟩,
          ⟨.brotli, some ['0', '.', '8']⟩]) avail' =
        some ⟨.brotli, some ['0', '.', '8']⟩ :=
  @C1_negotiate_first_match
    ⟨false, [⟨.gzip, some ['0', '.', '4']⟩, ⟨.identity, none⟩,
      ⟨.brotli, some ['0', '.', '8']⟩]⟩
    [.brotli, .gzip] ⟨.brotli, some ['0', '.', '8']⟩ (by decide)

/-- C2: when no entry matches but the wildcard flag is set and the available
list is non-empty, negotiate returns the first element of the available
list. -/
theorem C2_wildcard_first_available {acc : AcceptEncoding} {a : Encoding}
    {rest : List Encoding} (hno : ∀ p ∈ acc.entries, p.encoding ∉ a :: rest)
    (hw : acc.wildcard = true) :
    acc.negotiate (a :: rest) = (acc.sort, .ok ⟨a⟩) :=
  negotiate_none_wild_cons (findMatch_none_of_no_mem hno) hw

/-- C2 witness: brotli with weight 0.8 plus wildcard against availability
gzip yields gzip. -/
theorem C2_witness :
    (⟨true, [⟨.brotli, some ['0', '.', '8']⟩]⟩ : AcceptEncoding).negotiate [.gzip] =
      ((⟨true, [⟨.brotli, some ['0', '.', '8']⟩]⟩ : AcceptEncoding).sort,
        .ok ⟨Encoding.gzip⟩) :=
  C2_wildcard_first_available (by decide) (by decide)

/-- C3: when no entry matches and the wildcard fallback yields nothing,
negotiate fails with the 406 error. -/
theorem C3_fail_406 {acc : AcceptEncoding} {avail : List Encoding}
    (hno : ∀ p ∈ acc.entries, p.encoding ∉ avail)
    (hw : acc.wildcard = true → avail = []) :
    acc.negotiate avail = (acc.sort, .error notAcceptableError) ∧
      notAcceptableError.status = some 406 := by
  refine ⟨?_, rfl⟩
  have hfm := findMatch_none_of_no_mem hno
  cases hwb : acc.wildcard with
  | true =>
    obtain rfl := hw hwb
    exact negotiate_none_nil hfm hwb
  | false => exact negotiate_none_nowild hfm hwb

/-- C3 witness: empty proposal set, wildcard unset, availability gzip fails
with status 406. -/
theorem C3_witness :
    (⟨false, ([] : List EncodingProposal)⟩ : AcceptEncoding).negotiate [.gzip] =
      ((⟨false, ([] : List EncodingProposal)⟩ : AcceptEncoding).sort,
        .error notAcceptableError) ∧
      notAcceptableError.status = some 406 :=
  C3_fail_406 (by decide) (by decide)

/-- C4: sort permutes the entries and orders them by weight descending with
a missing weight counting as 1, later-declared entries preceding
earlier-declared ones among equal weights. -/
theorem C4_sort_spec (acc : AcceptEncoding) :
    acc.sort = ⟨acc.wildcard, (sortIdx acc.entries.enum).map Prod.snd⟩ ∧
    List.Perm (sortIdx acc.entries.enum) acc.entries.enum ∧
    List.Pairwise
      (fun a b : Nat × EncodingProposal =>
        qval b.2 < qval a.2 ∨ (qval a.2 = qval b.2 ∧ b.1 < a.1))
      (sortIdx acc.entries.enum) :=
  ⟨rfl, sortIdx_perm _, sortIdx_strict _⟩

/-- C5 counterexample: a header that is present but carries a malformed
weight makes the parser fail instead of returning a present aggregate. -/
theorem C5_cex : from_headers (some ["gzip;q=2"]) = .error weightRangeError := by decide

/-- C5 (amended): the parser returns the absent result exactly for an absent
header, and whenever a present header parses successfully the result is a
present aggregate, never the absent result. -/
theorem C5_presence (vals : List String) :
    from_headers none = .ok none ∧
    ∀ r, from_headers (some vals) = .ok r → r ≠ none := by
  refine ⟨rfl, ?_⟩
  intro r h hn
  subst hn
  have h2 : from_values vals = .ok none := h
  unfold from_values at h2
  cases hp : parseToks (vals.flatMap fun v => splitOnChar ',' (trimChars v.toList)) ([], false) with
  | error e => rw [hp] at h2; cases h2
  | ok st => rw [hp] at h2; cases h2

/-- C5 witness: the empty header value parses to a present aggregate with no
entries, distinct from the absent result. -/
theorem C5_witness :
    from_headers none = .ok none ∧
      (some (⟨false, []⟩ : AcceptEncoding) : Option AcceptEncoding) ≠ none :=
  ⟨(C5_presence [""]).1, (C5_presence [""]).2 (some ⟨false, []⟩) (by decide)⟩

/-- C6 counterexample: a directive with an unrecognized coding name and a
malformed weight is skipped, so the whole header value parses successfully
even though it contains a directive with a malformed weight. -/
theorem C6_cex : from_headers (some ["foo;q=9"]) = .ok (some ⟨false, []⟩) := by decide

/-- C6 (amended): a directive with a recognized coding and a malformed
weight aborts parsing of the whole value with an error and no partial
aggregate; a directive whose coding is unrecognized (other than the
wildcard) is skipped and parsing continues as if it were absent. -/
theorem C6_parse_faults :
    (∀ (t : List Char) (e : Error) (xs ys : List (List Char))
        (st : List EncodingProposal × Bool),
        EncodingProposal.from_str (trimChars t) = .error e →
        ∃ e2, parseToks (xs ++ t :: ys) st = .error e2) ∧
    (∀ (v : String) (xs ys : List (List Char)) (t : List Char) (e : Error),
        splitOnChar ',' (trimChars v.toList) = xs ++ t :: ys →
        EncodingProposal.from_str (trimChars t) = .error e →
        ∃ e2, from_headers (some [v]) = .error e2) ∧
    (∀ (t : List Char) (xs ys : List (List Char)) (st : List EncodingProposal × Bool),
        EncodingProposal.from_str (trimChars t) = .ok none → trimChars t ≠ ['*'] →
        parseToks (xs ++ t :: ys) st = parseToks (xs ++ ys) st) := by
  refine ⟨fun t e xs ys st h => parseToks_error_mem h xs ys st, ?_,
    fun t xs ys st h hstar => parseToks_skip h hstar xs ys st⟩
  intro v xs ys t e hsplit h
  rcases parseToks_error_mem h xs ys ([], false) with ⟨e2, he2⟩
  refine ⟨e2, ?_⟩
  show from_values [v] = .error e2
  rw [from_values_single, hsplit, he2]

/-- C6 witness: a malformed weight on a recognized coding aborts the token
list and the whole header value, while an unrecognized coding is skipped. -/
theorem C6_witness :
    (∃ e2, parseToks (["gzip".toList] ++ "br;q=xx".toList :: ["identity".toList])
        ([], false) = .error e2) ∧
    (∃ e2, from_headers (some ["gzip, br;q=xx"]) = .error e2) ∧
    parseToks (["gzip".toList] ++ "foo".toList :: ["br".toList]) ([], false) =
      parseToks (["gzip".toList] ++ ["br".toList]) ([], false) :=
  ⟨C6_parse_faults.1 "br;q=xx".toList weightSyntaxError ["gzip".toList]
      ["identity".toList] ([], false) (by decide),
    C6_parse_faults.2.1 "gzip, br;q=xx" ["gzip".toList] [] " br;q=xx".toList
      weightSyntaxError (by decide) (by decide),
    C6_parse_faults.2.2 "foo".toList ["gzip".toList] ["br".toList] ([], false)
      (by decide) (by decide)⟩

/-- C7: the serializer renders the entries in their current order as
comma-separated tokens, appending a star for the wildcard — comma-separated
after prior entries and bare when the entry list is empty. -/
theorem C7_value_spec (acc : AcceptEncoding) :
    acc.value =
      joinSep [',', ' ']
        (acc.entries.map renderProp ++ if acc.wildcard then [['*']] else []) ∧
    acc.header_value = String.mk acc.value :=
  ⟨value_eq acc, rfl⟩

/-- C8: serializing a freshly parsed aggregate and re-parsing the rendered
value yields the same entry sequence and the same wildcard flag. -/
theorem C8_roundtrip {vals : List String} {acc : AcceptEncoding}
    (h : from_headers (some vals) = .ok (some acc)) :
    from_headers (some [acc.header_value]) = .ok (some acc) :=
  roundtrip (from_headers_WF h)

/-- C8 witness: the header value with gzip at weight 0.8 followed by brotli
round-trips. -/
theorem C8_witness :
    from_headers (some [(⟨false, [⟨.gzip, some ['0', '.', '8']⟩,
        ⟨.brotli, none⟩]⟩ : AcceptEncoding).header_value]) =
      .ok (some ⟨false, [⟨.gzip, some ['0', '.', '8']⟩, ⟨.brotli, none⟩]⟩) :=
  @C8_roundtrip ["gzip;q=0.8, br"] _ (by decide)

/-- C9 counterexample: with two equal-weight proposals both available, a
second negotiate call on the mutated aggregate selects a different encoding
than the first call, so a second call does not always return the same
outcome. -/
theorem C9_cex :
    (((⟨false, [⟨.gzip, none⟩, ⟨.brotli, none⟩]⟩ : AcceptEncoding).negotiate
          [.gzip, .brotli]).1.negotiate [.gzip, .brotli]).2 ≠
      ((⟨false, [⟨.gzip, none⟩, ⟨.brotli, none⟩]⟩ : AcceptEncoding).negotiate
          [.gzip, .brotli]).2 := by decide

/-- C9 (amended): a failed negotiation is stable — the error is the 406
negotiation error, and repeating the call on the mutated aggregate with the
same available list fails with the same error. -/
theorem C9_fail_stable {acc : AcceptEncoding} {avail : List Encoding} {e : Error}
    (h : (acc.negotiate avail).2 = .error e) :
    e = notAcceptableError ∧ e.status = some 406 ∧
      ((acc.negotiate avail).1.negotiate avail).2 = .error e := by
  rcases negotiate_error_cases h with ⟨he, hfm, hw⟩
  subst he
  refine ⟨rfl, rfl, ?_⟩
  rw [negotiate_fst avail]
  have hno2 : ∀ p ∈ (acc.sort).entries, p.encoding ∉ avail := by
    rw [sort_entries]
    intro p hp
    exact (findMatch_eq_none.mp hfm) p hp
  have hfm2 : findMatch (sort_by_weight (acc.sort).entries) avail = none :=
    findMatch_none_of_no_mem hno2
  cases hwb : acc.wildcard with
  | true =>
    obtain rfl := hw hwb
    rw [negotiate_none_nil hfm2 (by rw [sort_wildcard]; exact hwb)]
  | false =>
    rw [negotiate_none_nowild hfm2 (by rw [sort_wildcard]; exact hwb)]

/-- C9 witness: brotli at weight 0.8 against availability gzip fails, and
the repeated call fails with the same 406 error. -/
theorem C9_witness :
    notAcceptableError = notAcceptableError ∧
      notAcceptableError.status = some 406 ∧
      (((⟨false, [⟨.brotli, some ['0', '.', '8']⟩]⟩ : AcceptEncoding).negotiate
          [.gzip]).1.negotiate [.gzip]).2 = .error notAcceptableError :=
  C9_fail_stable (by decide)

/-- C10: with an empty available list negotiate fails with the 406 error
even when the wildcard flag is set. -/
theorem C10_empty_available (acc : AcceptEncoding) :
    acc.negotiate [] = (acc.sort, .error notAcceptableError) ∧
      notAcceptableError.status = some 406 := by
  refine ⟨?_, rfl⟩
  have hfm : findMatch (sort_by_weight acc.entries) [] = none :=
    findMatch_eq_none.mpr (by intro p hp; simp)
  cases hwb : acc.wildcard with
  | true => exact negotiate_none_nil hfm hwb
  | false => exact negotiate_none_nowild hfm hwb
